import Mathlib

set_option linter.unusedVariables false

/-- Python strings (paths, digests, file types) are modelled as lists of characters. -/
abbrev Str := List Char

/-- One row of the file_info table created by ensure_database_exists:
path TEXT PRIMARY KEY, hash TEXT, file_type TEXT, size INTEGER,
last_modified INTEGER. -/
structure FileRecord where
  path : Str
  hash : Str
  file_type : Str
  size : Int
  last_modified : Int
deriving DecidableEq

/-- Filesystem metadata seen by the scanner for an existing file: the content
digest computed by get_file_hash, the size from os.path.getsize and the integer
mtime from os.path.getmtime, as deterministic functions of the path (one fixed,
unchanged tree). -/
structure FS where
  fhash : Str → Str
  fsize : Str → Int
  fmtime : Str → Int

/-- The mutable state touched by the maintenance and resolution commands: the
set of paths present on disk, and the file_info table as an ordered list of
rows. -/
structure SysState where
  disk : List Str
  index : List FileRecord
deriving DecidableEq

/-- Python str.lower, on the ASCII letters handled by Char.toLower. -/
def lowerStr (s : Str) : Str := s.map Char.toLower

/-- Python str.split with a one-character separator, as used by
collect_file_info on the full path. -/
def splitChar (c : Char) : Str → List Str
  | [] => [[]]
  | a :: as =>
    if a = c then [] :: splitChar c as
    else
      match splitChar c as with
      | [] => [[a]]
      | s :: ss => (a :: s) :: ss

/-- Python str.split with a two-character separator, scanning for leftmost
occurrences, as used by show_duplicate_files on the concatenated paths. -/
def splitTwo (c0 c1 : Char) : Str → List Str
  | [] => [[]]
  | [a] => [[a]]
  | a :: b :: rest =>
    if a = c0 ∧ b = c1 then [] :: splitTwo c0 c1 rest
    else
      match splitTwo c0 c1 (b :: rest) with
      | [] => [[a]]
      | s :: ss => (a :: s) :: ss

/-- SQLite GROUP_CONCAT(value, sep): the values of one group joined with sep. -/
def joinSep (sep : Str) : List Str → Str
  | [] => []
  | [x] => x
  | x :: y :: ys => x ++ sep ++ joinSep sep (y :: ys)

/-- Whether the two-character sequence c0 c1 occurs inside s. -/
def hasSeq2 (c0 c1 : Char) : Str → Bool
  | [] => false
  | [_] => false
  | a :: b :: rest => decide (a = c0 ∧ b = c1) || hasSeq2 c0 c1 (b :: rest)

/-- os.path.join(dirpath, filename) for POSIX paths, as used by the scanner. -/
def joinPath (d name : Str) : Str :=
  if name.head? = some '/' then name
  else if d = [] then name
  else if d.getLast? = some '/' then d ++ name
  else d ++ '/' :: name

/-- The file_type computed by collect_file_info: the lowercased text after the
last dot of the full path when the path contains a dot, else the sentinel
"unknown". The test is on the whole joined path, not on the filename. -/
def fileTypeOf (file_path : Str) : Str :=
  if '.' ∈ file_path then lowerStr ((splitChar '.' file_path).getLastD [])
  else "unknown".toList

/-- collect_file_info: digest, file type, size and mtime for a path. -/
def collect_file_info (fs : FS) (file_path : Str) : Str × Str × Int × Int :=
  (fs.fhash file_path, fileTypeOf file_path, fs.fsize file_path, fs.fmtime file_path)

/-- insert_or_update_file_info: INSERT OR REPLACE keyed on the path primary
key, so any prior row with the same path is dropped and the new row appended. -/
def insert_or_update_file_info (index : List FileRecord) (r : FileRecord) : List FileRecord :=
  (index.filter fun q => q.path ≠ r.path) ++ [r]

/-- The extension filter of find_duplicates_with_enhanced_info:
any(filename.lower().endswith(ext) for ext in file_types). The filename is
lowercased; the filter strings are used verbatim. -/
def matchesExt (file_types : List Str) (filename : Str) : Bool :=
  file_types.any fun ext => ext.isSuffixOf (lowerStr filename)

/-- The row upserted for one scanned path. -/
def mkRecord (fs : FS) (p : Str) : FileRecord :=
  { path := p, hash := fs.fhash p, file_type := fileTypeOf p,
    size := fs.fsize p, last_modified := fs.fmtime p }

/-- The rows processed by the os.walk loop of
find_duplicates_with_enhanced_info, in walk order: every (dirpath, filenames)
entry contributes its filenames that pass matchesExt, joined to dirpath. -/
def scanRecords (fs : FS) (walk : List (Str × List Str)) (file_types : List Str) :
    List FileRecord :=
  walk.flatMap fun e =>
    (e.2.filter (matchesExt file_types)).map fun n => mkRecord fs (joinPath e.1 n)

/-- The net effect of find_duplicates_with_enhanced_info on the file_info
table: the scanned rows upserted in walk order. -/
def scanIndex (fs : FS) (walk : List (Str × List Str)) (file_types : List Str)
    (index : List FileRecord) : List FileRecord :=
  (scanRecords fs walk file_types).foldl insert_or_update_file_info index

/-- The in-memory duplicates dict accumulated during the scan: each digest with
the scanned paths carrying it. -/
def dupGroups (recs : List FileRecord) : List (Str × List Str) :=
  ((recs.map FileRecord.hash).dedup).map fun h =>
    (h, (recs.filter fun r => r.hash = h).map FileRecord.path)

/-- find_duplicates_with_enhanced_info: walks the tree, upserts every matching
file and returns the digests held by more than one scanned path. -/
def find_duplicates_with_enhanced_info (fs : FS) (walk : List (Str × List Str))
    (file_types : List Str) (index : List FileRecord) :
    List FileRecord × List (Str × List Str) :=
  (scanIndex fs walk file_types index,
   (dupGroups (scanRecords fs walk file_types)).filter fun g => 1 < g.2.length)

/-- find_files_by_date: paths with last_modified >= start_date; the upper bound
is added only when end_date is truthy in Python, that is, present and nonzero. -/
def find_files_by_date (index : List FileRecord) (start_date : Int) (end_date : Option Int) :
    List Str :=
  match end_date with
  | none => (index.filter fun r => start_date ≤ r.last_modified).map FileRecord.path
  | some e =>
    if e = 0 then (index.filter fun r => start_date ≤ r.last_modified).map FileRecord.path
    else ((index.filter fun r => start_date ≤ r.last_modified).filter
        fun r => r.last_modified ≤ e).map FileRecord.path

/-- The disk loop of clean_old_files: each selected path still on disk is
removed from disk and collected, in selection order. -/
def cleanLoop (disk : List Str) : List Str → List Str × List Str
  | [] => (disk, [])
  | f :: rest =>
    if f ∈ disk then
      let r := cleanLoop (disk.filter fun q => q ≠ f) rest
      (r.1, f :: r.2)
    else cleanLoop disk rest

/-- clean_old_files: select the paths with last_modified below the threshold,
remove the ones that exist from disk, then delete exactly the removed ones from
the file_info table (one DELETE per removed path), returning them. -/
def clean_old_files (st : SysState) (last_accessed_threshold : Int) : SysState × List Str :=
  let old := (st.index.filter
      fun r => r.last_modified < last_accessed_threshold).map FileRecord.path
  let r := cleanLoop st.disk old
  ({ disk := r.1,
     index := r.2.foldl (fun idx f => idx.filter fun q => q.path ≠ f) st.index }, r.2)

/-- The file-deletion loop of delete_duplicates_and_update_db_interactive for
one group, with 1-based counter i and survivor position k: every path at a
position other than k that exists is removed from disk and collected. -/
def removeLoop (k i : Nat) (paths disk : List Str) : List Str × List Str :=
  match paths with
  | [] => (disk, [])
  | p :: rest =>
    if i ≠ k ∧ p ∈ disk then
      let r := removeLoop k (i + 1) rest (disk.filter fun q => q ≠ p)
      (r.1, p :: r.2)
    else removeLoop k (i + 1) rest disk

/-- One iteration of delete_duplicates_and_update_db_interactive: given the
parsed survivor choice for a (digest, paths) group, delete every other existing
file from disk, then issue the single
DELETE FROM file_info WHERE path != keep AND hash = digest. A failed int parse
(none) or a number outside 1..len(paths) skips the group. -/
def resolveGroup (st : SysState) (digest : Str) (paths : List Str) (choice : Option Int) :
    SysState × List Str :=
  match choice with
  | none => (st, [])
  | some k =>
    if 1 ≤ k ∧ k ≤ (paths.length : Int) then
      let r := removeLoop k.toNat 1 paths st.disk
      let keep := paths.getD (k.toNat - 1) []
      ({ disk := r.1,
         index := st.index.filter fun q => ¬(q.path ≠ keep ∧ q.hash = digest) }, r.2)
    else (st, [])

/-- delete_duplicates_and_update_db_interactive: every group of the dict is
processed with its own survivor choice; the per-group deleted paths are
concatenated in iteration order. -/
def delete_duplicates_and_update_db_interactive (st : SysState)
    (file_list : List ((Str × List Str) × Option Int)) : SysState × List Str :=
  match file_list with
  | [] => (st, [])
  | (g, c) :: rest =>
    let r := resolveGroup st g.1 g.2 c
    let r2 := delete_duplicates_and_update_db_interactive r.1 rest
    (r2.1, r.2 ++ r2.2)

/-- The dictionary returned by get_statistics. -/
structure Stats where
  total_files : Nat
  unique_file_types : Nat
  file_type_distribution : List (Str × Nat)
  total_size : Option Int
deriving DecidableEq

/-- get_statistics: COUNT(*), COUNT(DISTINCT file_type), the GROUP BY file_type
counts, and SUM(size), which is NULL on an empty table. -/
def get_statistics (index : List FileRecord) : Stats :=
  { total_files := index.length,
    unique_file_types := ((index.map FileRecord.file_type).dedup).length,
    file_type_distribution := ((index.map FileRecord.file_type).dedup).map
      fun t => (t, (index.map FileRecord.file_type).count t),
    total_size := if index = [] then none
      else some ((index.map FileRecord.size).sum) }

/-- show_duplicate_files: SELECT hash, GROUP_CONCAT(path, comma-space) FROM
file_info GROUP BY hash HAVING COUNT(*) > 1, after which Python splits each
concatenation back on comma-space. Digests in one canonical order; paths in
table order. -/
def show_duplicate_files (index : List FileRecord) : List (Str × List Str) :=
  (((index.map FileRecord.hash).dedup).filter fun h =>
      1 < (index.filter fun r => r.hash = h).length).map fun h =>
    (h, splitTwo ',' ' '
      (joinSep [',', ' '] ((index.filter fun r => r.hash = h).map FileRecord.path)))

/-- The stored paths carrying a digest, in table order. -/
def pathsOfHash (index : List FileRecord) (h : Str) : List Str :=
  (index.filter fun r => r.hash = h).map FileRecord.path

/-- The digest recorded for a path, if any. -/
def digestOf (index : List FileRecord) (p : Str) : Option Str :=
  (index.find? fun r => r.path = p).map FileRecord.hash

/-- Follows the spec's words for C4: the duplicate listing as the spec states
it, one entry per digest with at least two rows, carrying exactly the recorded
paths of that digest. -/
def specShowDuplicates (index : List FileRecord) : List (Str × List Str) :=
  (((index.map FileRecord.hash).dedup).filter fun h =>
      1 < (index.filter fun r => r.hash = h).length).map fun h =>
    (h, (index.filter fun r => r.hash = h).map FileRecord.path)

/-- Follows the spec's words for C5: exactly the paths whose stored
last_modified lies in the inclusive range, the upper bound applied whenever an
end value is given. -/
def specFindByDate (index : List FileRecord) (start_date : Int) (end_date : Option Int) :
    List Str :=
  (index.filter fun r =>
      decide (start_date ≤ r.last_modified) &&
        end_date.all fun e => decide (r.last_modified ≤ e)).map FileRecord.path

/-- Follows the spec's words for C7: the lowercase extension token of a
filename, the text after its last dot. -/
def extToken (filename : Str) : Str := lowerStr ((splitChar '.' filename).getLastD [])

/-- Follows the claim's words for C8: a fully case-insensitive suffix test,
with both the filename and the extension filter lowercased. -/
def ciSuffixMatch (file_types : List Str) (filename : Str) : Bool :=
  file_types.any fun ext => (lowerStr ext).isSuffixOf (lowerStr filename)

/-- The positions other than k of the survivor loop, 1-based from i: the paths
the loop attempts to delete. -/
def victims (k : Nat) : Nat → List Str → List Str
  | _, [] => []
  | i, p :: rest => if i = k then victims k (i + 1) rest else p :: victims k (i + 1) rest

/-- A trivial filesystem for closed instances: every file hashes to the empty
digest with size and mtime zero. -/
def fsZero : FS := { fhash := fun _ => [], fsize := fun _ => 0, fmtime := fun _ => 0 }

/-- A row whose mtime 0 makes it old for any positive threshold. -/
def cexRecordOld : FileRecord :=
  { path := "a".toList, hash := "h".toList, file_type := "txt".toList,
    size := 1, last_modified := 0 }

/-- A state holding the old row in the table while its file is absent from
disk. -/
def cexStateMissing : SysState := { disk := [], index := [cexRecordOld] }

/-- Two rows sharing a digest, the first with a comma-space inside its path. -/
def cexIndexComma : List FileRecord :=
  [{ path := "a, b".toList, hash := "h".toList, file_type := "txt".toList,
     size := 1, last_modified := 0 },
   { path := "c".toList, hash := "h".toList, file_type := "txt".toList,
     size := 1, last_modified := 0 }]

/-- One row with mtime 5, returned by a date query from 0. -/
def cexIndexDate : List FileRecord :=
  [{ path := "a".toList, hash := "h".toList, file_type := "txt".toList,
     size := 1, last_modified := 5 }]

/-- Two rows sharing digest h on paths a and b, both present on disk. -/
def wStateDup : SysState :=
  { disk := ["a".toList, "b".toList],
    index := [{ path := "a".toList, hash := "h".toList, file_type := "txt".toList,
                size := 1, last_modified := 10 },
              { path := "b".toList, hash := "h".toList, file_type := "txt".toList,
                size := 1, last_modified := 11 }] }

/-- A state where one old row's file is missing from disk (path a) while
another old row's file is present (path b). -/
def wStateClean : SysState :=
  { disk := ["b".toList],
    index := [{ path := "a".toList, hash := "h1".toList, file_type := "txt".toList,
                size := 1, last_modified := 0 },
              { path := "b".toList, hash := "h2".toList, file_type := "txt".toList,
                size := 2, last_modified := 0 }] }

/-- The table after a list of upserts, applied left to right; the scan's net
table effect is upsertAll of its scanned rows. -/
def upsertAll (recs : List FileRecord) (index : List FileRecord) : List FileRecord :=
  recs.foldl insert_or_update_file_info index

/-- The table with every row whose path occurs among recs removed, one filter
per rec, left to right. -/
def filterAllPaths (recs : List FileRecord) (x : List FileRecord) : List FileRecord :=
  recs.foldl (fun acc r => acc.filter fun q => q.path ≠ r.path) x

theorem cleanLoop_eq (old : List Str) : ∀ disk : List Str, old.Nodup →
    cleanLoop disk old =
      (disk.filter fun d => d ∉ old, old.filter fun f => f ∈ disk) := by
  induction old with
  | nil =>
    intro disk h
    simp [cleanLoop, List.filter_eq_self]
  | cons f rest ih =>
    intro disk h
    rcases List.nodup_cons.mp h with ⟨hf, hrest⟩
    by_cases hd : f ∈ disk
    · simp only [cleanLoop, if_pos hd, ih _ hrest]
      refine Prod.ext ?_ ?_
      · simp only [List.filter_filter]
        apply List.filter_congr
        intro d hdm
        by_cases h1 : d = f <;> by_cases h2 : d ∈ rest <;>
          simp [h1, h2, List.mem_cons]
      · rw [List.filter_cons_of_pos (by simpa using hd)]
        simp only [List.cons.injEq, true_and]
        apply List.filter_congr
        intro a ha
        have : a ≠ f := fun hc => hf (hc ▸ ha)
        simp [List.mem_filter, this]
    · simp only [cleanLoop, if_neg hd, ih _ hrest]
      refine Prod.ext ?_ ?_
      · apply List.filter_congr
        intro d hdm
        have : d ≠ f := fun hc => hd (hc ▸ hdm)
        simp [this, List.mem_cons]
      · rw [List.filter_cons_of_neg (by simpa using hd)]

theorem foldl_delete_eq (cleaned : List Str) : ∀ index : List FileRecord,
    cleaned.foldl (fun idx f => idx.filter fun q => q.path ≠ f) index =
      index.filter fun q => q.path ∉ cleaned := by
  induction cleaned with
  | nil =>
    intro index
    simp [List.filter_eq_self]
  | cons f rest ih =>
    intro index
    simp only [List.foldl_cons, ih, List.filter_filter]
    apply List.filter_congr
    intro q hq
    by_cases h1 : q.path = f <;> by_cases h2 : q.path ∈ rest <;>
      simp [h1, h2, List.mem_cons]

theorem nodup_oldPaths (st : SysState) (T : Int)
    (hnd : (st.index.map FileRecord.path).Nodup) :
    ((st.index.filter fun r => r.last_modified < T).map FileRecord.path).Nodup :=
  hnd.sublist ((List.filter_sublist _).map _)

theorem mem_oldPaths_self (st : SysState) (T : Int)
    (hnd : (st.index.map FileRecord.path).Nodup) (q : FileRecord) (hq : q ∈ st.index) :
    q.path ∈ (st.index.filter fun r => r.last_modified < T).map FileRecord.path ↔
      q.last_modified < T := by
  simp only [List.mem_map, List.mem_filter, decide_eq_true_eq]
  constructor
  · rintro ⟨r, ⟨hr, hrt⟩, hrp⟩
    have heq : r = q := List.inj_on_of_nodup_map hnd hr hq hrp
    exact heq ▸ hrt
  · intro h
    exact ⟨q, ⟨hq, h⟩, rfl⟩

theorem clean_spec (st : SysState) (T : Int)
    (hnd : (st.index.map FileRecord.path).Nodup) :
    (clean_old_files st T).1.index =
        (st.index.filter fun q => ¬(q.last_modified < T ∧ q.path ∈ st.disk)) ∧
    (clean_old_files st T).1.disk =
        (st.disk.filter fun d =>
          d ∉ (st.index.filter fun r => r.last_modified < T).map FileRecord.path) ∧
    (clean_old_files st T).2 =
        ((st.index.filter fun r => r.last_modified < T).map FileRecord.path).filter
          fun f => f ∈ st.disk := by
  have hno := nodup_oldPaths st T hnd
  refine ⟨?_, ?_, ?_⟩
  · simp only [clean_old_files, cleanLoop_eq _ _ hno]
    rw [foldl_delete_eq]
    apply List.filter_congr
    intro q hq
    have hmem := mem_oldPaths_self st T hnd q hq
    by_cases h1 : q.last_modified < T <;> by_cases h2 : q.path ∈ st.disk <;>
      simp [List.mem_filter, hmem, h1, h2]
  · simp only [clean_old_files, cleanLoop_eq _ _ hno]
  · simp only [clean_old_files, cleanLoop_eq _ _ hno]

/-- Claim C9: the rows clean_old_files deletes from the table are exactly the
paths it returns, the selected paths that existed on disk and were removed;
every other row, including selected rows whose file was missing from disk, is
left unchanged in the table. -/
theorem claim9_clean_frame (st : SysState) (T : Int)
    (hnd : (st.index.map FileRecord.path).Nodup) :
    (clean_old_files st T).1.index =
      (st.index.filter fun q => ¬(q.last_modified < T ∧ q.path ∈ st.disk)) ∧
    (clean_old_files st T).2 =
      ((st.index.filter fun r => r.last_modified < T).map FileRecord.path).filter
        fun f => f ∈ st.disk := by
  obtain ⟨h1, h2, h3⟩ := clean_spec st T hnd
  exact ⟨h1, h3⟩

theorem claim9_witness :
    ((wStateDup.index.map FileRecord.path).Nodup) ∧
    ((clean_old_files wStateDup 11).1.index =
      (wStateDup.index.filter fun q => ¬(q.last_modified < 11 ∧ q.path ∈ wStateDup.disk)) ∧
     (clean_old_files wStateDup 11).2 =
      ((wStateDup.index.filter fun r => r.last_modified < 11).map FileRecord.path).filter
        fun f => f ∈ wStateDup.disk) :=
  ⟨by decide, claim9_clean_frame wStateDup 11 (by decide)⟩

/-- Claim C2 (amended): after clean_old_files(T) a row is removed from the
table exactly when it was selected (mtime < T) and its file was on disk: every
remaining row with mtime < T had its path missing from disk; every selected
row whose file existed is removed from disk and table; and a selected row
whose file was missing from disk stays in the table (its absence is not an
error), so it may keep mtime < T after cleaning. -/
theorem claim2_clean_threshold (st : SysState) (T : Int)
    (hnd : (st.index.map FileRecord.path).Nodup) :
    (∀ q ∈ (clean_old_files st T).1.index, q.last_modified < T → q.path ∉ st.disk) ∧
    (∀ q ∈ st.index, q.last_modified < T → q.path ∈ st.disk →
        q.path ∉ (clean_old_files st T).1.disk ∧
        ∀ q2 ∈ (clean_old_files st T).1.index, q2.path ≠ q.path) ∧
    (∀ q ∈ st.index, q.last_modified < T → q.path ∉ st.disk →
        q ∈ (clean_old_files st T).1.index) := by
  obtain ⟨hidx, hdisk, hret⟩ := clean_spec st T hnd
  refine ⟨?_, ?_, ?_⟩
  · intro q hq hlt hdiskq
    rw [hidx] at hq
    rcases List.mem_filter.mp hq with ⟨hqi, hpred⟩
    simp only [decide_eq_true_eq] at hpred
    exact hpred ⟨hlt, hdiskq⟩
  · intro q hq hlt hdq
    constructor
    · rw [hdisk]
      intro hc
      rcases List.mem_filter.mp hc with ⟨-, hpred⟩
      simp only [decide_eq_true_eq] at hpred
      apply hpred
      simp only [List.mem_map, List.mem_filter, decide_eq_true_eq]
      exact ⟨q, ⟨hq, hlt⟩, rfl⟩
    · intro q2 hq2 hpath
      rw [hidx] at hq2
      rcases List.mem_filter.mp hq2 with ⟨hq2i, hpred⟩
      simp only [decide_eq_true_eq] at hpred
      have heq : q2 = q := List.inj_on_of_nodup_map hnd hq2i hq hpath
      subst heq
      exact hpred ⟨hlt, hdq⟩
  · intro q hq hlt hmiss
    rw [hidx]
    refine List.mem_filter.mpr ⟨hq, ?_⟩
    simp only [decide_eq_true_eq]
    rintro ⟨-, hc⟩
    exact hmiss hc

/-- Claim C2 counterexample: the selected path a is missing from disk and its
row is not removed from the table: after clean_old_files(1) the row with
mtime 0 < 1 is still indexed, against the claim that every record with
modifiedAt < T is removed from the index. -/
theorem claim2_counterexample :
    (clean_old_files cexStateMissing 1).1.index = [cexRecordOld] ∧
    cexRecordOld.last_modified < 1 := by decide

theorem claim2_witness :
    ((wStateClean.index.map FileRecord.path).Nodup) ∧
    ((∀ q ∈ (clean_old_files wStateClean 1).1.index,
        q.last_modified < 1 → q.path ∉ wStateClean.disk) ∧
     (∀ q ∈ wStateClean.index, q.last_modified < 1 → q.path ∈ wStateClean.disk →
        q.path ∉ (clean_old_files wStateClean 1).1.disk ∧
        ∀ q2 ∈ (clean_old_files wStateClean 1).1.index, q2.path ≠ q.path) ∧
     (∀ q ∈ wStateClean.index, q.last_modified < 1 → q.path ∉ wStateClean.disk →
        q ∈ (clean_old_files wStateClean 1).1.index)) :=
  ⟨by decide, claim2_clean_threshold wStateClean 1 (by decide)⟩

theorem count_list_beq (t : Str) (m : List Str) :
    m.count t = @List.count Str instBEqOfDecidableEq t m := by
  induction m with
  | nil => rfl
  | cons x xs ih =>
    simp only [List.count_cons, ih]
    congr 1
    by_cases h : t = x
    · subst h; simp
    · simp [beq_iff_eq, h]

/-- Claim C10: the statistics are internally consistent: the per-type counts of
file_type_distribution sum to total_files, and the number of distribution keys
equals unique_file_types. -/
theorem claim10_stats_consistent (index : List FileRecord) :
    (((get_statistics index).file_type_distribution).map Prod.snd).sum =
      (get_statistics index).total_files ∧
    ((get_statistics index).file_type_distribution).length =
      (get_statistics index).unique_file_types := by
  constructor
  · simp only [get_statistics, List.map_map]
    have h2 : (Prod.snd ∘ fun t => (t, (index.map FileRecord.file_type).count t)) =
        fun t => (index.map FileRecord.file_type).count t := rfl
    rw [h2]
    have h := List.sum_map_count_dedup_eq_length (index.map FileRecord.file_type)
    rw [List.length_map] at h
    rw [← h]
    congr 1
    exact List.map_congr_left fun t ht => count_list_beq t _
  · simp [get_statistics]

/-- Claim C5 (amended): find_files_by_date returns exactly the paths with
start <= mtime when end is absent, and exactly those with
start <= mtime <= end for every given nonzero end; a given end of 0 is treated
as absent (Python falsiness), not as an upper bound. -/
theorem claim5_date_range (index : List FileRecord) (start_date e : Int) (he : e ≠ 0) :
    (∀ p, p ∈ find_files_by_date index start_date (some e) ↔
        ∃ r ∈ index, r.path = p ∧ start_date ≤ r.last_modified ∧ r.last_modified ≤ e) ∧
    (∀ p, p ∈ find_files_by_date index start_date none ↔
        ∃ r ∈ index, r.path = p ∧ start_date ≤ r.last_modified) ∧
    find_files_by_date index start_date (some 0) =
      find_files_by_date index start_date none := by
  refine ⟨fun p => ?_, fun p => ?_, ?_⟩
  · simp only [find_files_by_date, if_neg he, List.mem_map, List.mem_filter,
      decide_eq_true_eq]
    constructor
    · rintro ⟨r, ⟨⟨hr, h1⟩, h2⟩, hp⟩
      exact ⟨r, hr, hp, h1, h2⟩
    · rintro ⟨r, hr, hp, h1, h2⟩
      exact ⟨r, ⟨⟨hr, h1⟩, h2⟩, hp⟩
  · simp only [find_files_by_date, List.mem_map, List.mem_filter, decide_eq_true_eq]
    constructor
    · rintro ⟨r, ⟨hr, h1⟩, hp⟩
      exact ⟨r, hr, hp, h1⟩
    · rintro ⟨r, hr, hp, h1⟩
      exact ⟨r, ⟨hr, h1⟩, hp⟩
  · rfl

/-- Claim C5 counterexample: with a given end_date of 0 the upper bound is
silently dropped: the code returns the path of the row with mtime 5, while the
claim requires exactly the rows with 0 <= mtime <= 0, an empty result. -/
theorem claim5_counterexample :
    find_files_by_date cexIndexDate 0 (some 0) = ["a".toList] ∧
    specFindByDate cexIndexDate 0 (some 0) = [] := by decide

theorem claim5_witness :
    ((4 : Int) ≠ 0) ∧
    ((∀ p, p ∈ find_files_by_date cexIndexDate 0 (some 4) ↔
        ∃ r ∈ cexIndexDate, r.path = p ∧ 0 ≤ r.last_modified ∧ r.last_modified ≤ 4) ∧
     (∀ p, p ∈ find_files_by_date cexIndexDate 0 none ↔
        ∃ r ∈ cexIndexDate, r.path = p ∧ 0 ≤ r.last_modified) ∧
     find_files_by_date cexIndexDate 0 (some 0) =
       find_files_by_date cexIndexDate 0 none) :=
  ⟨by decide, claim5_date_range cexIndexDate 0 4 (by decide)⟩

/-- Claim C3: an absent (unparsable) or out-of-range survivor choice leaves
disk and table untouched and deletes nothing, and the driving loop continues
with the remaining groups from the unchanged state. -/
theorem claim3_invalid_choice_skips (st : SysState) (digest : Str) (paths : List Str)
    (choice : Option Int) (rest : List ((Str × List Str) × Option Int))
    (hbad : choice = none ∨ ∃ k, choice = some k ∧ (k < 1 ∨ (paths.length : Int) < k)) :
    resolveGroup st digest paths choice = (st, []) ∧
    delete_duplicates_and_update_db_interactive st (((digest, paths), choice) :: rest) =
      delete_duplicates_and_update_db_interactive st rest := by
  have h1 : resolveGroup st digest paths choice = (st, []) := by
    rcases hbad with h | ⟨k, hk, hrange⟩
    · subst h; rfl
    · subst hk
      simp only [resolveGroup]
      rw [if_neg]
      omega
  refine ⟨h1, ?_⟩
  simp only [delete_duplicates_and_update_db_interactive, h1]
  rfl

theorem claim3_witness :
    (((none : Option Int) = none) ∨ ∃ k, (none : Option Int) = some k ∧
        (k < 1 ∨ ((["a".toList, "b".toList] : List Str).length : Int) < k)) ∧
    (resolveGroup wStateDup ("h".toList) ["a".toList, "b".toList] none = (wStateDup, []) ∧
     delete_duplicates_and_update_db_interactive wStateDup
        [(("h".toList, ["a".toList, "b".toList]), none)] =
       delete_duplicates_and_update_db_interactive wStateDup []) :=
  ⟨Or.inl rfl,
   claim3_invalid_choice_skips wStateDup ("h".toList) ["a".toList, "b".toList] none []
     (Or.inl rfl)⟩

theorem removeLoop_fst (k : Nat) : ∀ (paths : List Str) (i : Nat) (disk : List Str),
    (removeLoop k i paths disk).1 = disk.filter fun d => d ∉ victims k i paths := by
  intro paths
  induction paths with
  | nil =>
    intro i disk
    simp [removeLoop, victims, List.filter_eq_self]
  | cons p rest ih =>
    intro i disk
    by_cases hik : i = k
    · simp only [removeLoop, victims, if_pos hik]
      rw [if_neg (by simp [hik])]
      exact ih (i + 1) disk
    · simp only [removeLoop, victims, if_neg hik]
      by_cases hd : p ∈ disk
      · rw [if_pos ⟨hik, hd⟩]
        simp only [ih (i + 1) (disk.filter fun q => q ≠ p), List.filter_filter]
        apply List.filter_congr
        intro d hdm
        by_cases h1 : d = p <;> by_cases h2 : d ∈ victims k (i + 1) rest <;>
          simp [h1, h2, List.mem_cons]
      · rw [if_neg (fun hcon => hd hcon.2)]
        rw [ih (i + 1) disk]
        apply List.filter_congr
        intro d hdm
        have hdp : d ≠ p := fun hc => hd (hc ▸ hdm)
        simp [hdp, List.mem_cons]

theorem mem_victims (k : Nat) : ∀ (ps : List Str) (i : Nat) (d : Str),
    d ∈ victims k i ps ↔ ∃ j, j < ps.length ∧ ps.getD j [] = d ∧ i + j ≠ k := by
  intro ps
  induction ps with
  | nil =>
    intro i d
    simp [victims]
  | cons p rest ih =>
    intro i d
    by_cases hik : i = k
    · simp only [victims, if_pos hik, ih (i + 1) d]
      constructor
      · rintro ⟨j, hj, hget, hne⟩
        refine ⟨j + 1, ?_, ?_, ?_⟩
        · simpa [List.length_cons] using Nat.succ_lt_succ hj
        · simpa [List.getD_cons_succ] using hget
        · omega
      · rintro ⟨j, hj, hget, hne⟩
        cases j with
        | zero => omega
        | succ j2 =>
          refine ⟨j2, ?_, ?_, ?_⟩
          · simpa [List.length_cons] using hj
          · simpa [List.getD_cons_succ] using hget
          · omega
    · simp only [victims, if_neg hik, List.mem_cons, ih (i + 1) d]
      constructor
      · rintro (rfl | ⟨j, hj, hget, hne⟩)
        · exact ⟨0, by simp [List.length_cons], by simp [List.getD_cons_zero], by omega⟩
        · refine ⟨j + 1, ?_, ?_, ?_⟩
          · simpa [List.length_cons] using Nat.succ_lt_succ hj
          · simpa [List.getD_cons_succ] using hget
          · omega
      · rintro ⟨j, hj, hget, hne⟩
        cases j with
        | zero =>
          left
          simpa [List.getD_cons_zero] using hget.symm
        | succ j2 =>
          right
          refine ⟨j2, ?_, ?_, ?_⟩
          · simpa [List.length_cons] using hj
          · simpa [List.getD_cons_succ] using hget
          · omega

theorem filter_path_eq (idx : List FileRecord) (r : FileRecord)
    (hnd : (idx.map FileRecord.path).Nodup) (hr : r ∈ idx) :
    idx.filter (fun q => q.path = r.path) = [r] := by
  induction idx with
  | nil => cases hr
  | cons a rest ih =>
    rw [List.map_cons, List.nodup_cons] at hnd
    rcases hnd with ⟨ha, hrest⟩
    rcases List.mem_cons.mp hr with rfl | hrr
    · rw [List.filter_cons_of_pos (by simp)]
      have hnil : rest.filter (fun q => q.path = r.path) = [] := by
        apply List.filter_eq_nil_iff.mpr
        intro q hq
        simp only [decide_eq_true_eq]
        intro hc
        exact ha (List.mem_map.mpr ⟨q, hq, hc⟩)
      rw [hnil]
    · have hne : a.path ≠ r.path := by
        intro hc
        exact ha (hc ▸ List.mem_map.mpr ⟨r, hrr, rfl⟩)
      rw [List.filter_cons_of_neg (by simpa using hne)]
      exact ih hrest hrr

/-- Claim C1: resolving a duplicate group (digest, paths) whose paths are
exactly the stored paths of the digest, with a survivor choice k in 1..n whose
file is on disk, keeps exactly the survivor paths[k-1] on disk among the
group's paths, keeps exactly the survivor's row for that digest, removes every
other group path from disk and from the table, and the final table is the
original table with the single delete-all-except-survivor condition applied
once, after the per-file disk deletions. -/
theorem claim1_resolve_group_safety (st : SysState) (digest : Str) (paths : List Str)
    (k : Int)
    (hnd : (st.index.map FileRecord.path).Nodup)
    (hgp : pathsOfHash st.index digest = paths)
    (hn : 2 ≤ paths.length)
    (hk1 : 1 ≤ k) (hkn : k ≤ (paths.length : Int))
    (hdisk : paths.getD (k.toNat - 1) [] ∈ st.disk) :
    (∀ p ∈ paths, (p ∈ (resolveGroup st digest paths (some k)).1.disk ↔
        p = paths.getD (k.toNat - 1) [])) ∧
    (((resolveGroup st digest paths (some k)).1.index.filter
        fun r => r.hash = digest).map FileRecord.path = [paths.getD (k.toNat - 1) []]) ∧
    (∀ p ∈ paths, p ≠ paths.getD (k.toNat - 1) [] →
        ∀ r ∈ (resolveGroup st digest paths (some k)).1.index, r.path ≠ p) ∧
    (resolveGroup st digest paths (some k)).1.index =
      st.index.filter fun q =>
        ¬(q.path ≠ paths.getD (k.toNat - 1) [] ∧ q.hash = digest) := by
  have hcond : 1 ≤ k ∧ k ≤ (paths.length : Int) := ⟨hk1, hkn⟩
  have hk1n : 1 ≤ k.toNat := by omega
  have hkn1 : k.toNat - 1 < paths.length := by omega
  have hres : resolveGroup st digest paths (some k) =
      ({ disk := (removeLoop k.toNat 1 paths st.disk).1,
         index := st.index.filter fun q =>
           ¬(q.path ≠ paths.getD (k.toNat - 1) [] ∧ q.hash = digest) },
       (removeLoop k.toNat 1 paths st.disk).2) := by
    simp only [resolveGroup, if_pos hcond]
  set keep := paths.getD (k.toNat - 1) [] with hkeepdef
  have hNodupPaths : paths.Nodup := by
    rw [← hgp]
    exact hnd.sublist ((List.filter_sublist _).map _)
  have hkeep_mem : keep ∈ paths := by
    rw [hkeepdef, List.getD_eq_getElem paths [] hkn1]
    exact List.getElem_mem hkn1
  have hrec_keep : ∃ r0, r0 ∈ st.index ∧ r0.hash = digest ∧ r0.path = keep := by
    have h := hkeep_mem
    rw [← hgp] at h
    simp only [pathsOfHash, List.mem_map, List.mem_filter, decide_eq_true_eq] at h
    rcases h with ⟨r0, ⟨hr0, hh⟩, hp⟩
    exact ⟨r0, hr0, hh, hp⟩
  have hgetD_get : ∀ (j : Nat) (hj : j < paths.length),
      paths.getD j [] = paths.get ⟨j, hj⟩ := by
    intro j hj
    rw [List.getD_eq_getElem paths [] hj, List.get_eq_getElem]
  have hkeep_not_victim : keep ∉ victims k.toNat 1 paths := by
    intro hin
    rcases (mem_victims k.toNat paths 1 keep).mp hin with ⟨j, hj, hget, hne⟩
    have e1 : paths.get ⟨j, hj⟩ = paths.get ⟨k.toNat - 1, hkn1⟩ := by
      rw [← hgetD_get j hj, ← hgetD_get (k.toNat - 1) hkn1, hget, hkeepdef]
    have e2 := (hNodupPaths.get_inj_iff).mp e1
    have e3 : j = k.toNat - 1 := congrArg Fin.val e2
    omega
  have hvictim_of_ne : ∀ p ∈ paths, p ≠ keep → p ∈ victims k.toNat 1 paths := by
    intro p hp hpne
    rcases List.mem_iff_get.mp hp with ⟨⟨j, hj⟩, hget⟩
    refine (mem_victims k.toNat paths 1 p).mpr ⟨j, hj, ?_, ?_⟩
    · rw [hgetD_get j hj]
      exact hget
    · intro hc
      apply hpne
      have e3 : j = k.toNat - 1 := by omega
      rw [← hget, hkeepdef, hgetD_get (k.toNat - 1) hkn1]
      have e4 : (⟨j, hj⟩ : Fin paths.length) = ⟨k.toNat - 1, hkn1⟩ := Fin.ext e3
      rw [e4]
  have hdisk_eq : (resolveGroup st digest paths (some k)).1.disk =
      st.disk.filter fun d => d ∉ victims k.toNat 1 paths := by
    rw [hres]
    exact removeLoop_fst k.toNat paths 1 st.disk
  have hidx_eq : (resolveGroup st digest paths (some k)).1.index =
      st.index.filter fun q => ¬(q.path ≠ keep ∧ q.hash = digest) := by
    rw [hres]
  refine ⟨?_, ?_, ?_, hidx_eq⟩
  · intro p hp
    rw [hdisk_eq, List.mem_filter]
    constructor
    · rintro ⟨hpd, hnv⟩
      simp only [decide_eq_true_eq] at hnv
      by_contra hne
      exact hnv (hvictim_of_ne p hp hne)
    · intro hpk
      subst hpk
      refine ⟨hdisk, ?_⟩
      simp only [decide_eq_true_eq]
      exact hkeep_not_victim
  · rcases hrec_keep with ⟨r0, hr0, hh0, hp0⟩
    rw [hidx_eq, List.filter_filter]
    have hcongr : st.index.filter
        (fun q => decide (q.hash = digest) && decide (¬(q.path ≠ keep ∧ q.hash = digest))) =
        st.index.filter (fun q => q.path = r0.path) := by
      apply List.filter_congr
      intro q hq
      by_cases hqp : q.path = r0.path
      · have hqe : q = r0 := List.inj_on_of_nodup_map hnd hq hr0 hqp
        subst hqe
        simp [hh0, hp0]
      · by_cases hqh : q.hash = digest
        · have hqk : q.path ≠ keep := by
            rw [← hp0]
            exact hqp
          simp [hqh, hqk, hqp]
        · simp [hqh, hqp]
    rw [hcongr, filter_path_eq st.index r0 hnd hr0, List.map_cons, List.map_nil, hp0]
  · intro p hp hpne r hr hrp
    rw [hidx_eq] at hr
    rcases List.mem_filter.mp hr with ⟨hri, hpred⟩
    simp only [decide_eq_true_eq] at hpred
    have h := hp
    rw [← hgp] at h
    simp only [pathsOfHash, List.mem_map, List.mem_filter, decide_eq_true_eq] at h
    rcases h with ⟨q, ⟨hqi, hqh⟩, hqp⟩
    have hqe : r = q := List.inj_on_of_nodup_map hnd hri hqi (by rw [hrp, hqp])
    subst hqe
    exact hpred ⟨by rw [hrp]; exact hpne, hqh⟩

theorem claim1_witness :
    ((wStateDup.index.map FileRecord.path).Nodup ∧
     pathsOfHash wStateDup.index ("h".toList) = ["a".toList, "b".toList] ∧
     2 ≤ (["a".toList, "b".toList] : List Str).length ∧
     (1 : Int) ≤ 1 ∧ (1 : Int) ≤ ((["a".toList, "b".toList] : List Str).length : Int) ∧
     (["a".toList, "b".toList] : List Str).getD ((1 : Int).toNat - 1) [] ∈ wStateDup.disk) ∧
    ((∀ p ∈ (["a".toList, "b".toList] : List Str),
        (p ∈ (resolveGroup wStateDup ("h".toList) ["a".toList, "b".toList] (some 1)).1.disk ↔
          p = (["a".toList, "b".toList] : List Str).getD ((1 : Int).toNat - 1) [])) ∧
     (((resolveGroup wStateDup ("h".toList) ["a".toList, "b".toList] (some 1)).1.index.filter
        fun r => r.hash = "h".toList).map FileRecord.path =
          [(["a".toList, "b".toList] : List Str).getD ((1 : Int).toNat - 1) []]) ∧
     (∀ p ∈ (["a".toList, "b".toList] : List Str),
        p ≠ (["a".toList, "b".toList] : List Str).getD ((1 : Int).toNat - 1) [] →
        ∀ r ∈ (resolveGroup wStateDup ("h".toList) ["a".toList, "b".toList] (some 1)).1.index,
          r.path ≠ p) ∧
     (resolveGroup wStateDup ("h".toList) ["a".toList, "b".toList] (some 1)).1.index =
       wStateDup.index.filter fun q =>
         ¬(q.path ≠ (["a".toList, "b".toList] : List Str).getD ((1 : Int).toNat - 1) [] ∧
           q.hash = "h".toList)) :=
  ⟨⟨by decide, by decide, by decide, by decide, by decide, by decide⟩,
   claim1_resolve_group_safety wStateDup ("h".toList) ["a".toList, "b".toList] 1
     (by decide) (by decide) (by decide) (by decide) (by decide) (by decide)⟩

theorem upsertAll_append : ∀ (recs x y : List FileRecord),
    upsertAll recs (x ++ y) = filterAllPaths recs x ++ upsertAll recs y := by
  intro recs
  induction recs with
  | nil => intro x y; rfl
  | cons r rs ih =>
    intro x y
    show upsertAll rs (insert_or_update_file_info (x ++ y) r) = _
    rw [show insert_or_update_file_info (x ++ y) r =
        x.filter (fun q => q.path ≠ r.path) ++ insert_or_update_file_info y r by
      simp [insert_or_update_file_info, List.filter_append, List.append_assoc]]
    rw [ih]
    rfl

theorem filterAllPaths_eq_filter : ∀ (recs x : List FileRecord),
    filterAllPaths recs x = x.filter fun q => decide (∀ r ∈ recs, q.path ≠ r.path) := by
  intro recs
  induction recs with
  | nil =>
    intro x
    show x = _
    rw [List.filter_eq_self.mpr]
    intro q hq
    simp
  | cons r rs ih =>
    intro x
    show filterAllPaths rs (x.filter fun q => q.path ≠ r.path) = _
    rw [ih, List.filter_filter]
    apply List.filter_congr
    intro q hq
    by_cases h1 : q.path = r.path <;> by_cases h2 : ∀ s ∈ rs, q.path ≠ s.path <;>
      simp [h1, h2, List.forall_mem_cons]

theorem filterAllPaths_self (recs x : List FileRecord) :
    filterAllPaths recs (filterAllPaths recs x) = filterAllPaths recs x := by
  rw [filterAllPaths_eq_filter, filterAllPaths_eq_filter, List.filter_filter]
  apply List.filter_congr
  intro q hq
  by_cases h : ∀ r ∈ recs, q.path ≠ r.path <;> simp [h]

theorem filterAllPaths_append (recs x y : List FileRecord) :
    filterAllPaths recs (x ++ y) = filterAllPaths recs x ++ filterAllPaths recs y := by
  rw [filterAllPaths_eq_filter, filterAllPaths_eq_filter, filterAllPaths_eq_filter,
    List.filter_append]

theorem mem_upsertAll : ∀ (recs idx : List FileRecord) (q : FileRecord),
    q ∈ upsertAll recs idx → q ∈ idx ∨ q ∈ recs := by
  intro recs
  induction recs with
  | nil => intro idx q h; exact Or.inl h
  | cons r rs ih =>
    intro idx q h
    rcases ih _ q h with h2 | h2
    · simp only [insert_or_update_file_info, List.mem_append, List.mem_filter,
        List.mem_singleton] at h2
      rcases h2 with ⟨h3, -⟩ | rfl
      · exact Or.inl h3
      · exact Or.inr (List.mem_cons_self _ _)
    · exact Or.inr (List.mem_cons_of_mem r h2)

theorem filterAllPaths_base (recs : List FileRecord) :
    filterAllPaths recs (upsertAll recs []) = [] := by
  rw [filterAllPaths_eq_filter]
  apply List.filter_eq_nil_iff.mpr
  intro q hq
  simp only [decide_eq_true_eq]
  intro hall
  rcases mem_upsertAll recs [] q hq with h | h
  · cases h
  · exact hall q h rfl

theorem scan_idem (recs idx : List FileRecord) :
    upsertAll recs (upsertAll recs idx) = upsertAll recs idx := by
  have hA : ∀ z, upsertAll recs z = filterAllPaths recs z ++ upsertAll recs [] := by
    intro z
    conv_lhs => rw [← List.append_nil z]
    exact upsertAll_append recs z []
  rw [hA (upsertAll recs idx), hA idx, filterAllPaths_append, filterAllPaths_self,
    filterAllPaths_base, List.append_nil]

theorem nodup_upsert (idx : List FileRecord) (r : FileRecord)
    (h : (idx.map FileRecord.path).Nodup) :
    ((insert_or_update_file_info idx r).map FileRecord.path).Nodup := by
  simp only [insert_or_update_file_info, List.map_append, List.map_cons, List.map_nil]
  rw [List.nodup_append]
  refine ⟨h.sublist ((List.filter_sublist _).map _), List.nodup_singleton _, ?_⟩
  intro a ha
  simp only [List.mem_map, List.mem_filter, decide_eq_true_eq] at ha
  rcases ha with ⟨q, ⟨hq, hqp⟩, rfl⟩
  simp [hqp]

theorem nodup_upsertAll : ∀ (recs idx : List FileRecord),
    (idx.map FileRecord.path).Nodup → ((upsertAll recs idx).map FileRecord.path).Nodup := by
  intro recs
  induction recs with
  | nil => intro idx h; exact h
  | cons r rs ih =>
    intro idx h
    exact ih _ (nodup_upsert idx r h)

/-- Claim C6: scanning the same unchanged tree twice is idempotent: the second
scan leaves the file_info table identical to the first scan's result, hence
with the same record count and the same digest per path; and starting from a
table with unique paths, every intermediate state of the scan's upsert
sequence keeps at most one row per path. -/
theorem claim6_scan_idempotent (fs : FS) (walk : List (Str × List Str))
    (file_types : List Str) (index : List FileRecord)
    (hnd : (index.map FileRecord.path).Nodup) :
    (find_duplicates_with_enhanced_info fs walk file_types
        ((find_duplicates_with_enhanced_info fs walk file_types index).1)).1 =
      (find_duplicates_with_enhanced_info fs walk file_types index).1 ∧
    (find_duplicates_with_enhanced_info fs walk file_types
        ((find_duplicates_with_enhanced_info fs walk file_types index).1)).1.length =
      (find_duplicates_with_enhanced_info fs walk file_types index).1.length ∧
    (∀ p, digestOf (find_duplicates_with_enhanced_info fs walk file_types
        ((find_duplicates_with_enhanced_info fs walk file_types index).1)).1 p =
      digestOf (find_duplicates_with_enhanced_info fs walk file_types index).1 p) ∧
    (∀ pre, pre <+: scanRecords fs walk file_types →
        ((upsertAll pre index).map FileRecord.path).Nodup) := by
  have hkey : upsertAll (scanRecords fs walk file_types)
        (upsertAll (scanRecords fs walk file_types) index) =
      upsertAll (scanRecords fs walk file_types) index :=
    scan_idem (scanRecords fs walk file_types) index
  exact ⟨hkey, congrArg List.length hkey, fun p => congrArg (fun z => digestOf z p) hkey,
    fun pre hpre => nodup_upsertAll pre index hnd⟩

theorem claim6_witness :
    (((([] : List FileRecord)).map FileRecord.path).Nodup ∧ True) ∧
    ((find_duplicates_with_enhanced_info fsZero [("d".toList, ["a.txt".toList, "b.txt".toList])]
        [".txt".toList]
        ((find_duplicates_with_enhanced_info fsZero
            [("d".toList, ["a.txt".toList, "b.txt".toList])] [".txt".toList] []).1)).1 =
      (find_duplicates_with_enhanced_info fsZero [("d".toList, ["a.txt".toList, "b.txt".toList])]
        [".txt".toList] []).1 ∧
     (find_duplicates_with_enhanced_info fsZero [("d".toList, ["a.txt".toList, "b.txt".toList])]
        [".txt".toList]
        ((find_duplicates_with_enhanced_info fsZero
            [("d".toList, ["a.txt".toList, "b.txt".toList])] [".txt".toList] []).1)).1.length =
      (find_duplicates_with_enhanced_info fsZero [("d".toList, ["a.txt".toList, "b.txt".toList])]
        [".txt".toList] []).1.length ∧
     (∀ p, digestOf (find_duplicates_with_enhanced_info fsZero
          [("d".toList, ["a.txt".toList, "b.txt".toList])] [".txt".toList]
          ((find_duplicates_with_enhanced_info fsZero
              [("d".toList, ["a.txt".toList, "b.txt".toList])] [".txt".toList] []).1)).1 p =
        digestOf (find_duplicates_with_enhanced_info fsZero
          [("d".toList, ["a.txt".toList, "b.txt".toList])] [".txt".toList] []).1 p) ∧
     (∀ pre, pre <+: scanRecords fsZero [("d".toList, ["a.txt".toList, "b.txt".toList])]
          [".txt".toList] →
        ((upsertAll pre []).map FileRecord.path).Nodup)) :=
  ⟨⟨by decide, trivial⟩,
   claim6_scan_idempotent fsZero [("d".toList, ["a.txt".toList, "b.txt".toList])]
     [".txt".toList] [] (by decide)⟩

theorem getLastD_cons_eq {α : Type} (a d : α) (l : List α) :
    (a :: l).getLastD d = l.getLastD a := by
  cases l <;> simp [List.getLastD]

theorem getLastD_indep {α : Type} (l : List α) (d1 d2 : α) (h : l ≠ []) :
    l.getLastD d1 = l.getLastD d2 := by
  cases l with
  | nil => exact absurd rfl h
  | cons a l2 => rw [getLastD_cons_eq, getLastD_cons_eq]

theorem splitChar_ne_nil (c : Char) : ∀ l : Str, splitChar c l ≠ [] := by
  intro l
  induction l with
  | nil => simp [splitChar]
  | cons a as ih =>
    simp only [splitChar]
    by_cases h : a = c
    · simp [h]
    · rw [if_neg h]
      rcases hs : splitChar c as with _ | ⟨s, ss⟩
      · simp
      · simp

theorem splitChar_len2 (c : Char) : ∀ l : Str, c ∈ l → 2 ≤ (splitChar c l).length := by
  intro l
  induction l with
  | nil => intro h; cases h
  | cons a as ih =>
    intro h
    simp only [splitChar]
    by_cases hac : a = c
    · rw [if_pos hac]
      have hne := splitChar_ne_nil c as
      have hlen : 1 ≤ (splitChar c as).length := List.length_pos.mpr hne
      simp only [List.length_cons]
      omega
    · rw [if_neg hac]
      have hcas : c ∈ as := by
        rcases List.mem_cons.mp h with h1 | h2
        · exact absurd h1.symm hac
        · exact h2
      have h2 := ih hcas
      rcases hs : splitChar c as with _ | ⟨s, ss⟩
      · rw [hs] at h2; simp at h2
      · rw [hs] at h2
        simpa [List.length_cons] using h2

theorem splitChar_last_append (c : Char) : ∀ (xs ys : Str), c ∈ ys →
    (splitChar c (xs ++ ys)).getLastD [] = (splitChar c ys).getLastD [] := by
  intro xs
  induction xs with
  | nil => intro ys h; rfl
  | cons a xs2 ih =>
    intro ys h
    simp only [List.cons_append, splitChar]
    by_cases hac : a = c
    · rw [if_pos hac, getLastD_cons_eq]
      exact ih ys h
    · rw [if_neg hac]
      have hmem : c ∈ xs2 ++ ys := List.mem_append_right xs2 h
      have hlen := splitChar_len2 c (xs2 ++ ys) hmem
      obtain ⟨s, ss, hs⟩ : ∃ s ss, splitChar c (xs2 ++ ys) = s :: ss := by
        rcases hsp : splitChar c (xs2 ++ ys) with _ | ⟨s2, ss2⟩
        · exact absurd hsp (splitChar_ne_nil c _)
        · exact ⟨s2, ss2, rfl⟩
      have hss : ss ≠ [] := by
        rw [hs] at hlen
        intro hc
        rw [hc] at hlen
        simp at hlen
      have hred : (match splitChar c (List.append xs2 ys) with
          | [] => [[a]]
          | s :: ss => (a :: s) :: ss) = (a :: s) :: ss := by
        have : List.append xs2 ys = xs2 ++ ys := rfl
        rw [this, hs]
      rw [hred]
      calc ((a :: s) :: ss).getLastD [] = ss.getLastD (a :: s) := getLastD_cons_eq _ _ _
        _ = ss.getLastD s := getLastD_indep ss _ _ hss
        _ = (s :: ss).getLastD [] := (getLastD_cons_eq _ _ _).symm
        _ = (splitChar c ys).getLastD [] := by rw [← hs]; exact ih ys h

theorem joinPath_parts (d n : Str) :
    ∃ pre, joinPath d n = pre ++ n ∧ ∀ ch ∈ pre, ch ∈ d ∨ ch = '/' := by
  unfold joinPath
  by_cases h1 : n.head? = some '/'
  · rw [if_pos h1]
    exact ⟨[], rfl, by simp⟩
  · rw [if_neg h1]
    by_cases h2 : d = []
    · rw [if_pos h2]
      exact ⟨[], rfl, by simp⟩
    · rw [if_neg h2]
      by_cases h3 : d.getLast? = some '/'
      · rw [if_pos h3]
        exact ⟨d, rfl, fun ch hc => Or.inl hc⟩
      · rw [if_neg h3]
        refine ⟨d ++ ['/'], by simp, ?_⟩
        intro ch hc
        rcases List.mem_append.mp hc with h | h
        · exact Or.inl h
        · simp only [List.mem_singleton] at h
          exact Or.inr h

/-- Claim C7 (amended): the stored kind is computed from the full joined path,
not from the filename alone: when the filename contains a dot the kind is the
filename's lowercase extension token, and the sentinel "unknown" is stored
exactly when the full path has no dot, so a dot-free filename gets "unknown"
only when its directory path is dot-free as well (see the counterexample for a
dotted directory). -/
theorem claim7_file_kind (d name : Str) :
    ('.' ∈ name → fileTypeOf (joinPath d name) = extToken name) ∧
    ('.' ∉ d → '.' ∉ name → fileTypeOf (joinPath d name) = "unknown".toList) := by
  rcases joinPath_parts d name with ⟨pre, hj, hpre⟩
  constructor
  · intro hdot
    rw [hj]
    have hmem : '.' ∈ pre ++ name := List.mem_append_right pre hdot
    rw [fileTypeOf, if_pos hmem, splitChar_last_append '.' pre name hdot]
    rfl
  · intro hd hn
    have hnot : '.' ∉ pre ++ name := by
      intro hc
      rcases List.mem_append.mp hc with h | h
      · rcases hpre '.' h with h2 | h2
        · exact hd h2
        · exact absurd h2 (by decide)
      · exact hn h
    rw [hj, fileTypeOf, if_neg hnot]

/-- Claim C7 counterexample: the file README under directory a.b has a
dot-free filename, yet the stored kind is computed from the full path
a.b/README and comes out "b/readme", not the sentinel "unknown" the claim
requires for a dot-free filename. -/
theorem claim7_counterexample :
    '.' ∉ "README".toList ∧
    fileTypeOf (joinPath ("a.b".toList) ("README".toList)) = "b/readme".toList ∧
    fileTypeOf (joinPath ("a.b".toList) ("README".toList)) ≠ "unknown".toList := by decide

theorem claim7_witness :
    ('.' ∈ "data.TXT".toList ∧
     fileTypeOf (joinPath ("dir".toList) ("data.TXT".toList)) = extToken ("data.TXT".toList)) ∧
    ('.' ∉ "dir".toList ∧ '.' ∉ "data".toList ∧
     fileTypeOf (joinPath ("dir".toList) ("data".toList)) = "unknown".toList) :=
  ⟨⟨by decide, (claim7_file_kind ("dir".toList) ("data.TXT".toList)).1 (by decide)⟩,
   ⟨by decide, by decide,
    (claim7_file_kind ("dir".toList) ("data".toList)).2 (by decide) (by decide)⟩⟩

/-- Claim C8 (amended): the scanner processes exactly the files whose
lowercased filename ends with one of the extension filters taken verbatim: the
suffix test is against the filename only, and filename letter case never
affects matching; filter letter case does matter (see the counterexample with
an uppercase filter). -/
theorem claim8_extension_filter (fs : FS) (walk : List (Str × List Str))
    (file_types : List Str) :
    (∀ r, r ∈ scanRecords fs walk file_types ↔
      ∃ d names n, (d, names) ∈ walk ∧ n ∈ names ∧
        (∃ ext ∈ file_types, ext <:+ lowerStr n) ∧ r = mkRecord fs (joinPath d n)) ∧
    (∀ n n2, lowerStr n = lowerStr n2 →
      matchesExt file_types n = matchesExt file_types n2) := by
  constructor
  · intro r
    simp only [scanRecords, List.mem_flatMap, List.mem_map, List.mem_filter]
    constructor
    · rintro ⟨⟨d, names⟩, he, ⟨n, ⟨hn, hm2⟩, rfl⟩⟩
      refine ⟨d, names, n, he, hn, ?_, rfl⟩
      simpa [matchesExt, List.any_eq_true, List.isSuffixOf_iff_suffix] using hm2
    · rintro ⟨d, names, n, he, hn, hsuf, rfl⟩
      refine ⟨(d, names), he, n, ⟨hn, ?_⟩, rfl⟩
      simpa [matchesExt, List.any_eq_true, List.isSuffixOf_iff_suffix] using hsuf
  · intro n n2 hl
    simp only [matchesExt, hl]

/-- Claim C8 counterexample: with the uppercase filter .TXT, the filename
a.TXT ends with the filter under a fully case-insensitive comparison, yet the
scanner lowercases only the filename and keeps the filter verbatim, so the
file is not processed. -/
theorem claim8_counterexample :
    ciSuffixMatch [".TXT".toList] ("a.TXT".toList) = true ∧
    matchesExt [".TXT".toList] ("a.TXT".toList) = false ∧
    scanRecords fsZero [("d".toList, ["a.TXT".toList])] [".TXT".toList] = [] := by decide

theorem claim8_witness :
    (mkRecord fsZero (joinPath ("D".toList) ("A.TXT".toList)) ∈
      scanRecords fsZero [("D".toList, ["A.TXT".toList])] [".txt".toList]) ∧
    matchesExt [".txt".toList] ("A.TXT".toList) = matchesExt [".txt".toList] ("a.txt".toList) :=
  ⟨((claim8_extension_filter fsZero [("D".toList, ["A.TXT".toList])] [".txt".toList]).1 _).mpr
      ⟨"D".toList, ["A.TXT".toList], "A.TXT".toList, by decide, by decide,
       ⟨".txt".toList, by decide, ⟨"a".toList, by decide⟩⟩, rfl⟩,
   (claim8_extension_filter fsZero [("D".toList, ["A.TXT".toList])] [".txt".toList]).2
     ("A.TXT".toList) ("a.txt".toList) (by decide)⟩

theorem splitTwo_cons2_pos (c0 c1 : Char) (rest : Str) :
    splitTwo c0 c1 (c0 :: c1 :: rest) = [] :: splitTwo c0 c1 rest := by
  simp [splitTwo]

theorem splitTwo_cons2_neg (c0 c1 a b : Char) (rest : Str) (h : ¬(a = c0 ∧ b = c1)) :
    splitTwo c0 c1 (a :: b :: rest) =
      match splitTwo c0 c1 (b :: rest) with
      | [] => [[a]]
      | s :: ss => (a :: s) :: ss := by
  simp [splitTwo, h]

theorem splitTwo_no_occ (c0 c1 : Char) : ∀ (N : Nat) (x : Str), x.length ≤ N →
    hasSeq2 c0 c1 x = false → splitTwo c0 c1 x = [x] := by
  intro N
  induction N with
  | zero =>
    intro x hx hocc
    have hnil : x = [] := List.length_eq_zero.mp (Nat.le_zero.mp hx)
    subst hnil
    rfl
  | succ N ih =>
    intro x hx hocc
    match x with
    | [] => rfl
    | [a] => rfl
    | a :: b :: rest =>
      have hcond : ¬(a = c0 ∧ b = c1) := by
        intro hc
        simp [hasSeq2, hc] at hocc
      have hocc2 : hasSeq2 c0 c1 (b :: rest) = false := by
        simp only [hasSeq2, Bool.or_eq_false_iff] at hocc
        exact hocc.2
      have hx2 : (b :: rest).length ≤ N := by
        simp only [List.length_cons] at hx ⊢
        omega
      rw [splitTwo_cons2_neg c0 c1 a b rest hcond, ih (b :: rest) hx2 hocc2]

theorem splitTwo_boundary (c0 c1 : Char) (hne : c0 ≠ c1) : ∀ (N : Nat) (x : Str),
    x.length ≤ N → hasSeq2 c0 c1 x = false → ∀ rest : Str,
    splitTwo c0 c1 (x ++ c0 :: c1 :: rest) = x :: splitTwo c0 c1 rest := by
  intro N
  induction N with
  | zero =>
    intro x hx hocc rest
    have hnil : x = [] := List.length_eq_zero.mp (Nat.le_zero.mp hx)
    subst hnil
    rw [List.nil_append, splitTwo_cons2_pos]
  | succ N ih =>
    intro x hx hocc rest
    match x with
    | [] => rw [List.nil_append, splitTwo_cons2_pos]
    | [a] =>
      have hcond : ¬(a = c0 ∧ c0 = c1) := fun hc => hne hc.2
      show splitTwo c0 c1 (a :: c0 :: c1 :: rest) = [a] :: splitTwo c0 c1 rest
      rw [splitTwo_cons2_neg c0 c1 a c0 (c1 :: rest) hcond, splitTwo_cons2_pos]
    | a :: b :: x2 =>
      have hcond : ¬(a = c0 ∧ b = c1) := by
        intro hc
        simp [hasSeq2, hc] at hocc
      have hocc2 : hasSeq2 c0 c1 (b :: x2) = false := by
        simp only [hasSeq2, Bool.or_eq_false_iff] at hocc
        exact hocc.2
      have hx2 : (b :: x2).length ≤ N := by
        simp only [List.length_cons] at hx ⊢
        omega
      have hrec := ih (b :: x2) hx2 hocc2 rest
      show splitTwo c0 c1 (a :: b :: (x2 ++ c0 :: c1 :: rest)) =
        (a :: b :: x2) :: splitTwo c0 c1 rest
      rw [splitTwo_cons2_neg c0 c1 a b (x2 ++ c0 :: c1 :: rest) hcond]
      rw [List.cons_append] at hrec
      rw [hrec]

theorem splitTwo_joinSep (c0 c1 : Char) (hne : c0 ≠ c1) : ∀ l : List Str, l ≠ [] →
    (∀ p ∈ l, hasSeq2 c0 c1 p = false) → splitTwo c0 c1 (joinSep [c0, c1] l) = l := by
  intro l
  induction l with
  | nil => intro h hall; exact absurd rfl h
  | cons x l2 ih =>
    intro hne2 hall
    cases l2 with
    | nil =>
      show splitTwo c0 c1 x = [x]
      exact splitTwo_no_occ c0 c1 x.length x le_rfl (hall x (List.mem_cons_self x []))
    | cons y l3 =>
      show splitTwo c0 c1 ((x ++ [c0, c1]) ++ joinSep [c0, c1] (y :: l3)) = x :: y :: l3
      rw [List.append_assoc]
      have hx := hall x (List.mem_cons_self x (y :: l3))
      have hb := splitTwo_boundary c0 c1 hne x.length x le_rfl hx (joinSep [c0, c1] (y :: l3))
      rw [show x ++ ([c0, c1] ++ joinSep [c0, c1] (y :: l3)) =
          x ++ c0 :: c1 :: joinSep [c0, c1] (y :: l3) from rfl]
      rw [hb]
      rw [ih (by simp) (fun p hp => hall p (List.mem_cons_of_mem x hp))]

/-- Claim C4 (amended): when no stored path contains the comma-space separator,
show_duplicate_files returns, for exactly the digests with at least two rows,
each digest with exactly its stored path list: GROUP_CONCAT followed by the
split is the identity on such path lists. A stored path containing a
comma-space is split apart (see the counterexample). -/
theorem claim4_show_duplicates (index : List FileRecord)
    (hsep : ∀ r ∈ index, hasSeq2 ',' ' ' r.path = false) :
    show_duplicate_files index = specShowDuplicates index ∧
    (∀ h ps, (h, ps) ∈ show_duplicate_files index →
        ps = (index.filter fun r => r.hash = h).map FileRecord.path ∧
        2 ≤ (index.filter fun r => r.hash = h).length) ∧
    (∀ h, 2 ≤ (index.filter fun r => r.hash = h).length →
        (h, (index.filter fun r => r.hash = h).map FileRecord.path) ∈
          show_duplicate_files index) := by
  have heq : show_duplicate_files index = specShowDuplicates index := by
    unfold show_duplicate_files specShowDuplicates
    apply List.map_congr_left
    intro h hh
    rcases List.mem_filter.mp hh with ⟨hded, hlen⟩
    simp only [decide_eq_true_eq] at hlen
    have hnil : (index.filter fun r => r.hash = h).map FileRecord.path ≠ [] := by
      intro hc
      have hc2 := congrArg List.length hc
      simp only [List.length_map, List.length_nil] at hc2
      omega
    have hallp : ∀ p ∈ (index.filter fun r => r.hash = h).map FileRecord.path,
        hasSeq2 ',' ' ' p = false := by
      intro p hp
      rcases List.mem_map.mp hp with ⟨r, hr, rfl⟩
      exact hsep r (List.mem_filter.mp hr).1
    rw [splitTwo_joinSep ',' ' ' (by decide) _ hnil hallp]
  refine ⟨heq, ?_, ?_⟩
  · intro h ps hmem
    rw [heq] at hmem
    unfold specShowDuplicates at hmem
    rcases List.mem_map.mp hmem with ⟨h0, hh0, hpair⟩
    have h1 : h0 = h := congrArg Prod.fst hpair
    have h2 : (index.filter fun r => r.hash = h0).map FileRecord.path = ps :=
      congrArg Prod.snd hpair
    subst h1
    rcases List.mem_filter.mp hh0 with ⟨-, hlen⟩
    simp only [decide_eq_true_eq] at hlen
    exact ⟨h2.symm, by omega⟩
  · intro h hlen
    have hpos : (index.filter fun r => r.hash = h) ≠ [] := by
      intro hc
      rw [hc] at hlen
      simp at hlen
    rcases List.exists_mem_of_ne_nil _ hpos with ⟨r, hr⟩
    rcases List.mem_filter.mp hr with ⟨hri, hrh⟩
    simp only [decide_eq_true_eq] at hrh
    have hded : h ∈ (index.map FileRecord.hash).dedup :=
      List.mem_dedup.mpr (List.mem_map.mpr ⟨r, hri, hrh⟩)
    have hbase : h ∈ ((index.map FileRecord.hash).dedup).filter
        (fun h2 => 1 < (index.filter fun r => r.hash = h2).length) :=
      List.mem_filter.mpr ⟨hded, by simp only [decide_eq_true_eq]; omega⟩
    rw [heq]
    unfold specShowDuplicates
    exact List.mem_map.mpr ⟨h, hbase, rfl⟩

/-- Claim C4 counterexample: with the stored paths "a, b" and "c" sharing
digest h, the returned group is the split of the concatenation "a, b, c",
namely ["a", "b", "c"]; it contains the path "a" which is not a stored path,
so the returned group is not the list of stored paths of the digest. -/
theorem claim4_counterexample :
    show_duplicate_files cexIndexComma =
      [("h".toList, ["a".toList, "b".toList, "c".toList])] ∧
    ("a".toList ∉ (cexIndexComma.filter fun r => r.hash = "h".toList).map FileRecord.path) ∧
    show_duplicate_files cexIndexComma ≠ specShowDuplicates cexIndexComma := by decide

theorem claim4_witness :
    (∀ r ∈ wStateDup.index, hasSeq2 ',' ' ' r.path = false) ∧
    (show_duplicate_files wStateDup.index = specShowDuplicates wStateDup.index ∧
     (∀ h ps, (h, ps) ∈ show_duplicate_files wStateDup.index →
        ps = (wStateDup.index.filter fun r => r.hash = h).map FileRecord.path ∧
        2 ≤ (wStateDup.index.filter fun r => r.hash = h).length) ∧
     (∀ h, 2 ≤ (wStateDup.index.filter fun r => r.hash = h).length →
        (h, (wStateDup.index.filter fun r => r.hash = h).map FileRecord.path) ∈
          show_duplicate_files wStateDup.index)) :=
  ⟨by decide, claim4_show_duplicates wStateDup.index (by decide)⟩
